import Mathlib

/-!
Verification of the "ask-my-docs" ingestion and retrieval pipelines.

The development shallowly embeds the Python sources `src/ingest.py` and
`src/rag_pipeline.py`.  Text is modelled as `List Char` (`Str`), timestamps
as naturals, and the external capabilities (text extraction with OCR
fallback, the Ollama embedding call, the ChromaDB vector index, the wall
clock) as explicit parameters/oracles, exactly at the boundaries the code
calls them.
-/

/-- Text, modelled as a list of characters (a Python `str`). -/
abbrev Str := List Char

/-- An embedding vector.  The numeric contents are irrelevant to every
property below; only success/failure and emptiness of the embedding call
matter, so vectors are lists of integers. -/
abbrev Vec := List Int

/-- Python's `str.strip()`: drop whitespace from both ends
(`ingest.py` line 115, `rag_pipeline.py` line 56). -/
def pyStrip (s : Str) : Str :=
  ((s.dropWhile Char.isWhitespace).reverse.dropWhile Char.isWhitespace).reverse

/-- The `CHUNK_SIZE` constant of `ingest.py` (line 31). -/
def CHUNK_SIZE : Nat := 800

/-- The `CHUNK_OVERLAP` constant of `ingest.py` (line 32). -/
def CHUNK_OVERLAP : Nat := 100

/-- The loop body of `chunk_text` (`ingest.py` lines 112-118), with an
explicit fuel argument standing for the loop's termination measure.  Each
iteration with `start < len(text)` takes the window
`text[start : min(start+size, len(text))]` (= `(text.drop start).take size`),
strips it, keeps it if non-empty, and advances `start` by `size - overlap`.
The source loop terminates whenever `overlap < size` (then the step is at
least 1 and at most `text.length` iterations ever run), which is the regime
of every claim; `chunk_text` below supplies fuel `text.length + 1`, enough
to reproduce the loop exactly in that regime. -/
def chunkTextGo (text : Str) (size overlap : Nat) : Nat → Nat → List Str
  | 0, _ => []
  | fuel + 1, start =>
    if start < text.length then
      let c := pyStrip ((text.drop start).take size)
      let rest := chunkTextGo text size overlap fuel (start + (size - overlap))
      if c = [] then rest else c :: rest
    else []

/-- The `chunk_text` function of `ingest.py` (lines 110-119). -/
def chunk_text (text : Str) (size overlap : Nat) : List Str :=
  chunkTextGo text size overlap (text.length + 1) 0

/-- The pre-trim source span `(start, end)` of each scan window of
`chunk_text`: the loop of `ingest.py` lines 113-118 reads the slice
`text[start:end]` with `end = min(start + size, len(text))`, so the spans
are exactly the pairs collected here (same fuel, same cursor advance).
Emitted chunks are the windows whose stripped slice is non-empty. -/
def chunkSpansGo (len size overlap : Nat) : Nat → Nat → List (Nat × Nat)
  | 0, _ => []
  | fuel + 1, start =>
    if start < len then
      (start, min (start + size) len) :: chunkSpansGo len size overlap fuel (start + (size - overlap))
    else []

/-- The source spans of the scan windows of `chunk_text text size overlap`. -/
def chunkSpans (text : Str) (size overlap : Nat) : List (Nat × Nat) :=
  chunkSpansGo text.length size overlap (text.length + 1) 0

/-- The pairs of consecutive elements of a list. -/
def consecPairs {α : Type} : List α → List (α × α)
  | a :: b :: rest => (a, b) :: consecPairs (b :: rest)
  | _ => []

/-- The number of positions shared by two half-open spans `[p.1, p.2)` and
`[q.1, q.2)`. -/
def spanOverlap (p q : Nat × Nat) : Nat :=
  min p.2 q.2 - max p.1 q.1

/-- The `MAX_CONTEXT_CHARS` constant of `rag_pipeline.py` (line 12). -/
def MAX_CONTEXT_CHARS : Nat := 4000

/-- The `TOP_K` constant of `rag_pipeline.py` (line 11). -/
def TOP_K : Nat := 4

/-- The blank-line separator `"\n\n"` appended after each kept chunk
(`rag_pipeline.py` line 55). -/
def nl2 : Str := ['\n', '\n']

/-- The loop of `truncate_context` (`rag_pipeline.py` lines 51-55): walk the
ranked chunks in order, stop (`break`) at the first chunk whose length added
to the accumulated context would exceed `max_chars`, otherwise append the
chunk followed by a blank line. -/
def truncateLoop (maxChars : Nat) : List Str → Str → Str
  | [], ctx => ctx
  | c :: rest, ctx =>
    if ctx.length + c.length > maxChars then ctx
    else truncateLoop maxChars rest (ctx ++ (c ++ nl2))

/-- The `truncate_context` function of `rag_pipeline.py` (lines 49-56):
the loop's accumulated string, finally `strip()`ed. -/
def truncate_context (chunks : List Str) (maxChars : Nat) : Str :=
  pyStrip (truncateLoop maxChars chunks [])

/-- Concatenation of a list of chunks, each followed by the blank-line
separator: the exact pre-strip shape of the accumulated context. -/
def flatJoin : List Str → Str
  | [] => []
  | c :: rest => c ++ nl2 ++ flatJoin rest

/-- Blank-line-separated concatenation of a list of chunks (separator
between chunks only): the shape the specification ascribes to the
assembled context. -/
def sepJoin : List Str → Str
  | [] => []
  | [c] => c
  | c :: c2 :: rest => c ++ nl2 ++ sepJoin (c2 :: rest)

/-- The metadata record stored with each chunk
(`ingest.py` lines 169-173): `{filename, chunk_index, timestamp}`.
The `timestamp` field is the wall-clock reading `time.time()`, supplied to
the model as an explicit clock value. -/
structure ChunkMeta where
  filename : Str
  chunk_index : Nat
  timestamp : Nat
deriving DecidableEq

/-- One record of the vector index: the chunk identifier, its embedding,
its text, and its metadata (the arguments of `collection.add`,
`ingest.py` lines 175-180). -/
structure Entry where
  id : Str
  embedding : Vec
  document : Str
  metadata : ChunkMeta
deriving DecidableEq

/-- The vector index (the ChromaDB collection), modelled as the list of
records upserted into it, in insertion order. -/
abbrev Index := List Entry

/-- Membership test for a chunk identifier: models
`collection.get(ids=[doc_id])` followed by the non-emptiness test of
`existing["ids"]` (`ingest.py` lines 165-166). -/
def indexHas (idx : Index) (docId : Str) : Bool :=
  idx.any (fun e => e.id == docId)

/-- The on-disk ingestion state: the JSON object mapping filename to the
modification timestamp at which the file was last ingested
(`ingest.py` lines 58-67).  Modelled as an association list in key
insertion order; `load_state`/`save_state` round-trip it unchanged, so the
model passes the loaded mapping in and returns the saved mapping. -/
abbrev IngestState := List (Str × Nat)

/-- Python's `state.get(name, 0)` (`ingest.py` line 142): the recorded
timestamp, with a missing entry treated as 0. -/
def stateGetD (st : IngestState) (k : Str) : Nat :=
  match st.find? (fun p => p.1 == k) with
  | some p => p.2
  | none => 0

/-- Python's `state[name] = mtime` (`ingest.py` line 186): replace the
value of an existing key in place, or append a new key. -/
def stateSet (st : IngestState) (k : Str) (v : Nat) : IngestState :=
  if st.any (fun p => p.1 == k) then
    st.map (fun p => if p.1 == k then (k, v) else p)
  else st ++ [(k, v)]

/-- The chunk identifier `f"{pdf_path.stem}::chunk_{i}"`
(`ingest.py` line 164). -/
def chunkId (stem : Str) (i : Nat) : Str :=
  stem ++ "::chunk_".data ++ (Nat.repr i).data

/-- The record upserted for chunk `c` at position `i` with embedding `v`
(`collection.add`, `ingest.py` lines 169-180). -/
def mkEntry (stem fname : Str) (now i : Nat) (v : Vec) (c : Str) : Entry :=
  { id := chunkId stem i, embedding := v, document := c,
    metadata := { filename := fname, chunk_index := i, timestamp := now } }

/-- The per-chunk loop of `ingest_single_pdf` (`ingest.py` lines 159-183),
abstracting the Ollama embedding call as the oracle
`embed : Str → Option Vec` (`None` = the call raised and `embed_text`
returned `None`, line 129).  For each chunk, in order: invoke the embedding
capability (recorded in the second component, by chunk position); on
`if not embedding` — `None` or an empty vector — skip the chunk
(`continue`); otherwise skip the upsert if the chunk identifier is already
present in the index (dedup), else append the new record.  Returns the
final index and the list of chunk positions for which the embedding
capability was invoked. -/
def ingestLoop (embed : Str → Option Vec) (stem fname : Str) (now : Nat) :
    List Str → Nat → Index → Index × List Nat
  | [], _, idx => (idx, [])
  | c :: rest, i, idx =>
    let idx' :=
      match embed c with
      | none => idx
      | some v =>
        if v = [] then idx
        else if indexHas idx (chunkId stem i) then idx
        else idx ++ [mkEntry stem fname now i v c]
    let r := ingestLoop embed stem fname now rest (i + 1) idx'
    (r.1, i :: r.2)

/-- The observable outcome of one `ingest_single_pdf` run: the vector index
and saved state after the run, the number of document-text extraction
passes performed (the `run_ocr_if_needed`/`extract_text_from_pdf` chain of
lines 147-148, counted as one pass), and the chunk positions for which the
embedding capability was invoked. -/
structure IngestResult where
  index : Index
  state : IngestState
  extractCalls : Nat
  embedCalls : List Nat

/-- The `ingest_single_pdf` function (`ingest.py` lines 133-190).
External effects are explicit parameters: `extracted` is the text the
extraction-with-OCR-fallback chain returns for this document (already
`strip()`ed by `extract_text_from_pdf`, line 75), `embed` the embedding
oracle, `mtime` the document's current modification timestamp, `now` the
wall clock, `state0` the loaded state and `idx0` the vector index at the
start of the run.  Control flow follows the source: skip when the recorded
timestamp is at least `mtime` (line 142); abort without touching index or
state when the extracted text is empty (lines 150-152); otherwise chunk
with the configured size and overlap, run the per-chunk loop, and record
`mtime` for this filename in the saved state (lines 185-187). -/
def ingest_single_pdf (extracted : Str) (embed : Str → Option Vec)
    (name stem : Str) (mtime now : Nat) (state0 : IngestState) (idx0 : Index) :
    IngestResult :=
  if stateGetD state0 name ≥ mtime then
    { index := idx0, state := state0, extractCalls := 0, embedCalls := [] }
  else if extracted = [] then
    { index := idx0, state := state0, extractCalls := 1, embedCalls := [] }
  else
    let chunks := chunk_text extracted CHUNK_SIZE CHUNK_OVERLAP
    let r := ingestLoop embed stem name now chunks 0 idx0
    { index := r.1, state := stateSet state0 name mtime,
      extractCalls := 1, embedCalls := r.2 }

/-- The `retrieve_context` function (`rag_pipeline.py` lines 36-46).
The query-embedding call is the oracle `embedQ` (`none` = the call raised;
the surrounding `try/except` then returns two empty lists, line 46).  The
nearest-neighbour search `collection.query` belongs to the external vector
index and is abstracted as `queryIndex`, returning the ranked matching
records of the index; the documents and metadatas lists are read off the
returned records, as lines 41-42 read `results["documents"][0]` and
`results["metadatas"][0]`. -/
def retrieve_context (embedQ : Str → Option Vec)
    (queryIndex : Index → Vec → Nat → List Entry) (idx : Index) (q : Str)
    (k : Nat) : List Str × List ChunkMeta :=
  match embedQ q with
  | none => ([], [])
  | some v =>
    let results := queryIndex idx v k
    (results.map (fun e => e.document), results.map (fun e => e.metadata))

/-- A pre-existing vector-index record carrying the identifier of the first
chunk of a document with stem `"d"`; used to exhibit the behaviour of
`ingest_single_pdf` on an already-present chunk identifier. -/
def dupEntry : Entry :=
  { id := chunkId ['d'] 0, embedding := [1], document := ['x'],
    metadata := { filename := ['d','.','p','d','f'], chunk_index := 0, timestamp := 0 } }

/-- Dropping a while-prefix never lengthens a list. -/
theorem dropWhile_length_le {α : Type} (p : α → Bool) (l : List α) :
    (l.dropWhile p).length ≤ l.length := by
  induction l with
  | nil => simp [List.dropWhile]
  | cons a t ih =>
    by_cases h : p a
    · simp only [List.dropWhile, h]
      exact Nat.le_trans ih (Nat.le_succ _)
    · simp [List.dropWhile, h]

/-- Stripping never lengthens a string. -/
theorem pyStrip_length_le (s : Str) : (pyStrip s).length ≤ s.length := by
  unfold pyStrip
  calc ((s.dropWhile Char.isWhitespace).reverse.dropWhile Char.isWhitespace).reverse.length
      = ((s.dropWhile Char.isWhitespace).reverse.dropWhile Char.isWhitespace).length := by
        rw [List.length_reverse]
    _ ≤ (s.dropWhile Char.isWhitespace).reverse.length := dropWhile_length_le _ _
    _ = (s.dropWhile Char.isWhitespace).length := by rw [List.length_reverse]
    _ ≤ s.length := dropWhile_length_le _ _

/-- Every chunk produced by the loop has length at most `size`. -/
theorem chunkTextGo_length_le (text : Str) (size overlap : Nat) :
    ∀ fuel start c, c ∈ chunkTextGo text size overlap fuel start → c.length ≤ size := by
  intro fuel
  induction fuel with
  | zero => intro start c hc; simp [chunkTextGo] at hc
  | succ f ih =>
    intro start c hc
    simp only [chunkTextGo] at hc
    split at hc
    · split at hc
      · exact ih _ _ hc
      · rcases List.mem_cons.mp hc with h | h
        · subst h
          calc (pyStrip ((text.drop start).take size)).length
              ≤ ((text.drop start).take size).length := pyStrip_length_le _
            _ ≤ size := by simp [List.length_take]
        · exact ih _ _ h
    · simp at hc

/-- Once the cursor has passed the end of the text the loop stops, whatever
fuel is left. -/
theorem chunkTextGo_of_le (text : Str) (size overlap : Nat) (fuel start : Nat)
    (h : text.length ≤ start) : chunkTextGo text size overlap fuel start = [] := by
  cases fuel with
  | zero => simp [chunkTextGo]
  | succ f => simp [chunkTextGo, Nat.not_lt.mpr h]

/-- Fuel-irrelevance: when `overlap < size`, any fuel exceeding the number
of characters left yields the same chunk list — i.e. the source loop
terminates and the fuel in `chunk_text` is just its termination measure. -/
theorem chunkTextGo_fuel_irrel (text : Str) (size overlap : Nat) (hov : overlap < size) :
    ∀ f1 f2 start, text.length - start < f1 → text.length - start < f2 →
      chunkTextGo text size overlap f1 start = chunkTextGo text size overlap f2 start := by
  intro f1
  induction f1 with
  | zero => intro f2 start h1 _; omega
  | succ f ih =>
    intro f2 start h1 h2
    cases f2 with
    | zero => omega
    | succ g =>
      by_cases hs : start < text.length
      · simp only [chunkTextGo, if_pos hs]
        by_cases hend : text.length ≤ start + (size - overlap)
        · rw [chunkTextGo_of_le _ _ _ _ _ hend, chunkTextGo_of_le _ _ _ _ _ hend]
        · rw [ih g (start + (size - overlap)) (by omega) (by omega)]
      · simp [chunkTextGo, hs]

/-- The head of a non-empty span list is the span at the current cursor,
and that cursor is inside the text. -/
theorem chunkSpansGo_head (len size overlap fuel s : Nat) (q : Nat × Nat)
    (rest : List (Nat × Nat)) (h : chunkSpansGo len size overlap fuel s = q :: rest) :
    q = (s, min (s + size) len) ∧ s < len := by
  cases fuel with
  | zero => simp [chunkSpansGo] at h
  | succ f =>
    by_cases hs : s < len
    · simp only [chunkSpansGo, if_pos hs] at h
      exact ⟨(List.cons.injEq _ _ _ _ ▸ h).1.symm, hs⟩
    · simp [chunkSpansGo, hs] at h

/-- Structure of consecutive scan windows: the second window starts
`size − overlap` after the first, starts inside the text, and both ends are
clamped to the text length. -/
theorem chunkSpansGo_consec (len size overlap : Nat) :
    ∀ fuel start p, p ∈ consecPairs (chunkSpansGo len size overlap fuel start) →
      ∃ s1, p.1 = (s1, min (s1 + size) len) ∧ p.2.1 = s1 + (size - overlap) ∧
        p.2.1 < len ∧ p.2.2 = min (p.2.1 + size) len := by
  intro fuel
  induction fuel with
  | zero => intro start p hp; simp [chunkSpansGo, consecPairs] at hp
  | succ f ih =>
    intro start p hp
    by_cases hs : start < len
    · simp only [chunkSpansGo, if_pos hs] at hp
      cases htail : chunkSpansGo len size overlap f (start + (size - overlap)) with
      | nil => rw [htail] at hp; simp [consecPairs] at hp
      | cons q rest =>
        rw [htail] at hp
        simp only [consecPairs, List.mem_cons] at hp
        rcases hp with hp | hp
        · obtain ⟨hq, hlt⟩ := chunkSpansGo_head len size overlap f _ q rest htail
          refine ⟨start, ?_, ?_, ?_, ?_⟩ <;> subst hp <;> simp [hq, hlt]
        · exact ih _ _ (htail ▸ hp)
    · simp [chunkSpansGo, hs, consecPairs] at hp

/-- C4: for every text and every pair of parameters with `overlap < size`,
`chunk(text, size, overlap)` terminates — the loop's result is independent
of any sufficiently large fuel, i.e. the loop stabilises — and every chunk
it emits has length at most `size`. -/
theorem chunk_text_terminates_and_bounded (text : Str) (size overlap : Nat)
    (hov : overlap < size) :
    (∀ fuel, text.length < fuel →
        chunkTextGo text size overlap fuel 0 = chunk_text text size overlap) ∧
    (∀ c ∈ chunk_text text size overlap, c.length ≤ size) := by
  constructor
  · intro fuel hf
    exact chunkTextGo_fuel_irrel text size overlap hov fuel (text.length + 1) 0
      (by omega) (by omega)
  · intro c hc
    exact chunkTextGo_length_le text size overlap _ _ c hc

/-- Witness for C4 at `text = "hello"`, `size = 5`, `overlap = 3`. -/
theorem chunk_text_terminates_and_bounded_w :
    (3 < 5) ∧
    ((∀ fuel, (['h','e','l','l','o'] : Str).length < fuel →
        chunkTextGo ['h','e','l','l','o'] 5 3 fuel 0 = chunk_text ['h','e','l','l','o'] 5 3) ∧
     (∀ c ∈ chunk_text ['h','e','l','l','o'] 5 3, c.length ≤ 5)) :=
  ⟨by decide, chunk_text_terminates_and_bounded ['h','e','l','l','o'] 5 3 (by decide)⟩

/-- C5 (counterexample): with `text = "abcdef"`, `size = 5`, `overlap = 3`
(so `overlap < size`), the last two scan windows of `chunk_text` have
pre-trim source spans `(2,6)` and `(4,6)`, which overlap by `2` characters,
not by `overlap = 3`: the claim that every two consecutive windows overlap
by exactly `overlap` fails when the earlier window is clipped by the end of
the text. -/
theorem chunk_span_overlap_cex :
    ((2,6),(4,6)) ∈ consecPairs (chunkSpans ['a','b','c','d','e','f'] 5 3) ∧
    spanOverlap (2,6) (4,6) = 2 ∧ 2 ≠ 3 := by
  decide

/-- C5 (amended): for `overlap < size`, the pre-trim source spans of two
consecutive scan windows of `chunk(text, size, overlap)` overlap by exactly
`min overlap (text.length − s2)` characters, where `s2` is the start of the
later window; in particular they overlap by exactly `overlap` characters
whenever the earlier window is not clipped by the end of the text. -/
theorem chunk_span_overlap_amended (text : Str) (size overlap : Nat)
    (hov : overlap < size) (p : (Nat × Nat) × Nat × Nat)
    (hp : p ∈ consecPairs (chunkSpans text size overlap)) :
    spanOverlap p.1 p.2 = min overlap (text.length - p.2.1) ∧
    (p.1.1 + size ≤ text.length → spanOverlap p.1 p.2 = overlap) := by
  obtain ⟨⟨a1, b1⟩, a2, b2⟩ := p
  obtain ⟨s1, h1, h2, h3, h4⟩ := chunkSpansGo_consec text.length size overlap _ _ _ hp
  simp only [Prod.mk.injEq] at h1 h2 h3 h4 ⊢
  obtain ⟨ha, hb⟩ := h1
  simp only [spanOverlap]
  subst ha hb h2 h4
  constructor
  · omega
  · intro hcl; omega

/-- Witness for C5 (amended) at `text = "abcdef"`, `size = 5`,
`overlap = 3` and the first pair of consecutive windows. -/
theorem chunk_span_overlap_amended_w :
    (3 < 5 ∧ (((0,5),(2,6)) ∈ consecPairs (chunkSpans ['a','b','c','d','e','f'] 5 3))) ∧
    (spanOverlap (0,5) (2,6) = min 3 ((['a','b','c','d','e','f'] : Str).length - 2) ∧
     (0 + 5 ≤ (['a','b','c','d','e','f'] : Str).length → spanOverlap (0,5) (2,6) = 3)) :=
  ⟨⟨by decide, by decide⟩,
   chunk_span_overlap_amended ['a','b','c','d','e','f'] 5 3 (by decide) ((0,5),(2,6)) (by decide)⟩

/-- The loop keeps exactly a prefix of the ranked chunks, each one whole
and followed by the separator. -/
theorem truncateLoop_shape (maxChars : Nat) :
    ∀ cs ctx, ∃ n, n ≤ List.length cs ∧
      truncateLoop maxChars cs ctx = ctx ++ flatJoin (cs.take n) := by
  intro cs
  induction cs with
  | nil => intro ctx; exact ⟨0, Nat.le_refl _, by simp [truncateLoop, flatJoin]⟩
  | cons c rest ih =>
    intro ctx
    by_cases h : ctx.length + c.length > maxChars
    · exact ⟨0, Nat.zero_le _, by simp [truncateLoop, h, flatJoin]⟩
    · obtain ⟨n, hn, hres⟩ := ih (ctx ++ (c ++ nl2))
      refine ⟨n + 1, by simpa using Nat.succ_le_succ hn, ?_⟩
      simp only [truncateLoop, if_neg h, hres, List.take_succ_cons, flatJoin]
      simp [List.append_assoc]

/-- Invariant of the loop: the accumulated context is empty or of the form
`c ++ "\n\n"` with `c.length ≤ maxChars`. -/
theorem truncateLoop_bound (maxChars : Nat) :
    ∀ cs ctx, (ctx = [] ∨ ∃ c, ctx = c ++ nl2 ∧ c.length ≤ maxChars) →
      (truncateLoop maxChars cs ctx = [] ∨
       ∃ c, truncateLoop maxChars cs ctx = c ++ nl2 ∧ c.length ≤ maxChars) := by
  intro cs
  induction cs with
  | nil => intro ctx h; simpa [truncateLoop] using h
  | cons c rest ih =>
    intro ctx h
    by_cases hb : ctx.length + c.length > maxChars
    · simpa [truncateLoop, hb] using h
    · simp only [truncateLoop, if_neg hb]
      refine ih (ctx ++ (c ++ nl2)) (Or.inr ⟨ctx ++ c, ?_, ?_⟩)
      · simp [List.append_assoc]
      · simp only [List.length_append]; omega

/-- Stripping a string that ends in the blank-line separator removes at
least those two characters. -/
theorem pyStrip_append_nl2_length (c : Str) : (pyStrip (c ++ nl2)).length ≤ c.length := by
  induction c with
  | nil => decide
  | cons a t ih =>
    by_cases h : Char.isWhitespace a
    · have he : pyStrip ((a :: t) ++ nl2) = pyStrip (t ++ nl2) := by
        simp [pyStrip, List.dropWhile, h]
      rw [he]
      exact Nat.le_trans ih (Nat.le_succ _)
    · have h1 : ((a :: t) ++ nl2).dropWhile Char.isWhitespace = a :: (t ++ nl2) := by
        simp [List.dropWhile, h]
      have hnl : Char.isWhitespace '\n' = true := by decide
      calc (pyStrip ((a :: t) ++ nl2)).length
          = ((a :: (t ++ nl2)).reverse.dropWhile Char.isWhitespace).length := by
            simp only [pyStrip, h1, List.length_reverse]
        _ = ((t.reverse ++ [a]).dropWhile Char.isWhitespace).length := by
            simp [nl2, List.reverse_append, List.dropWhile_cons_of_pos, hnl]
        _ ≤ (t.reverse ++ [a]).length := dropWhile_length_le _ _
        _ = (a :: t).length := by simp

/-- C6 (counterexample): with the single ranked chunk `" a"` and budget 10,
`truncate_context` returns `"a"`: the final `strip()` trims the chunk's own
leading whitespace, so the returned string is not the blank-line-separated
concatenation of any prefix of the input (the only prefixes are `[]`,
yielding `""`, and the whole input, yielding `" a"`); in particular the
kept chunk is not returned whole. -/
theorem truncate_context_cex :
    truncate_context [[' ', 'a']] 10 = ['a'] ∧
    truncate_context [[' ', 'a']] 10 ≠ sepJoin [] ∧
    truncate_context [[' ', 'a']] 10 ≠ sepJoin [[' ', 'a']] ∧
    ([[' ', 'a']] : List Str).take 0 = [] ∧
    ([[' ', 'a']] : List Str).take 1 = [[' ', 'a']] := by
  decide

/-- C6 (amended): `truncate_context(ranked_texts, max_chars)` returns a
string of length at most `max_chars`, and that string is the
whitespace-trimmed blank-line-joined concatenation of a prefix of the
ranked input: whole chunks in input order, each followed by the separator,
with only the outermost leading/trailing whitespace removed by the final
`strip()` (so it is exactly the blank-line-separated concatenation whenever
the kept chunks carry no whitespace at the extremes). -/
theorem truncate_context_amended (chunks : List Str) (maxChars : Nat) :
    (∃ n, n ≤ chunks.length ∧
        truncate_context chunks maxChars = pyStrip (flatJoin (chunks.take n))) ∧
    (truncate_context chunks maxChars).length ≤ maxChars := by
  constructor
  · obtain ⟨n, hn, hres⟩ := truncateLoop_shape maxChars chunks []
    exact ⟨n, hn, by simp [truncate_context, hres]⟩
  · have hb := truncateLoop_bound maxChars chunks [] (Or.inl rfl)
    rcases hb with h | ⟨c, hc, hlen⟩
    · simp [truncate_context, h, pyStrip]
    · calc (truncate_context chunks maxChars).length
          = (pyStrip (c ++ nl2)).length := by rw [truncate_context, hc]
        _ ≤ c.length := pyStrip_append_nl2_length c
        _ ≤ maxChars := hlen

/-- Membership of a chunk identifier distributes over index concatenation. -/
theorem indexHas_append (l1 l2 : Index) (d : Str) :
    indexHas (l1 ++ l2) d = (indexHas l1 d || indexHas l2 d) := by
  simp [indexHas, List.any_append]

/-- Characterisation of one entry added by the per-chunk loop when started
at chunk position `i`: it stems from some chunk `j` of the list, carries
that chunk's position, identifier and text, and a successful non-empty
embedding of it. -/
def newsOk (embed : Str → Option Vec) (stem : Str) (cs : List Str) (i : Nat)
    (x : Entry) : Prop :=
  ∃ j, ∃ hj : j < cs.length, x.metadata.chunk_index = i + j ∧
    x.id = chunkId stem (i + j) ∧ embed (cs.get ⟨j, hj⟩) = some x.embedding ∧
    x.embedding ≠ []

/-- Re-indexing an added entry across one consumed chunk. -/
theorem newsOk_shift (embed : Str → Option Vec) (stem : Str) (c : Str)
    (rest : List Str) (i : Nat) (x : Entry) (h : newsOk embed stem rest (i + 1) x) :
    newsOk embed stem (c :: rest) i x := by
  obtain ⟨j, hj, h1, h2, h3, h4⟩ := h
  refine ⟨j + 1, Nat.succ_lt_succ hj, ?_, ?_, h3, h4⟩
  · rw [h1]; omega
  · rw [show i + (j + 1) = i + 1 + j by omega]; exact h2

/-- The per-chunk loop invokes the embedding capability once for every
chunk, in order, whatever the index contains. -/
theorem ingestLoop_calls (embed : Str → Option Vec) (stem fname : Str) (now : Nat) :
    ∀ (cs : List Str) (i : Nat) (idx : Index),
      (ingestLoop embed stem fname now cs i idx).2 = List.range' i cs.length := by
  intro cs
  induction cs with
  | nil => intro i idx; simp [ingestLoop]
  | cons c rest ih =>
    intro i idx
    simp only [ingestLoop, List.length_cons, List.range'_succ]
    rw [ih]

/-- Master description of the per-chunk loop's effect on the index: it
appends a list of new records; none of them carries an identifier already
present when the loop started; no identifier is added twice; and each of
them comes from a successfully embedded chunk of the list. -/
theorem ingestLoop_index (embed : Str → Option Vec) (stem fname : Str) (now : Nat) :
    ∀ (cs : List Str) (i : Nat) (idx : Index), ∃ news : List Entry,
      (ingestLoop embed stem fname now cs i idx).1 = idx ++ news ∧
      (∀ x ∈ news, indexHas idx x.id = false) ∧
      List.Pairwise (fun a b => a.id ≠ b.id) news ∧
      (∀ x ∈ news, newsOk embed stem cs i x) := by
  intro cs
  induction cs with
  | nil =>
    intro i idx
    exact ⟨[], by simp [ingestLoop], by simp, List.Pairwise.nil, by simp⟩
  | cons c rest ih =>
    intro i idx
    cases hembed : embed c with
    | none =>
      obtain ⟨news, h1, h2, h3, h4⟩ := ih (i + 1) idx
      exact ⟨news, by simp only [ingestLoop, hembed]; exact h1, h2, h3,
        fun x hx => newsOk_shift embed stem c rest i x (h4 x hx)⟩
    | some v =>
      by_cases hv : v = []
      · obtain ⟨news, h1, h2, h3, h4⟩ := ih (i + 1) idx
        exact ⟨news, by simp only [ingestLoop, hembed, if_pos hv]; exact h1, h2, h3,
          fun x hx => newsOk_shift embed stem c rest i x (h4 x hx)⟩
      · by_cases hhas : indexHas idx (chunkId stem i) = true
        · obtain ⟨news, h1, h2, h3, h4⟩ := ih (i + 1) idx
          exact ⟨news,
            by simp only [ingestLoop, hembed, if_neg hv, if_pos hhas]; exact h1, h2, h3,
            fun x hx => newsOk_shift embed stem c rest i x (h4 x hx)⟩
        · obtain ⟨news, h1, h2, h3, h4⟩ := ih (i + 1) (idx ++ [mkEntry stem fname now i v c])
          refine ⟨mkEntry stem fname now i v c :: news, ?_, ?_, ?_, ?_⟩
          · simp only [ingestLoop, hembed, if_neg hv, if_neg hhas]
            rw [h1, List.append_assoc, List.singleton_append]
          · intro x hx
            rcases List.mem_cons.mp hx with hx | hx
            · subst hx
              simp only [mkEntry]
              simpa using hhas
            · have := h2 x hx
              rw [indexHas_append, Bool.or_eq_false_iff] at this
              exact this.1
          · refine List.Pairwise.cons ?_ h3
            intro x hx
            have := h2 x hx
            rw [indexHas_append, Bool.or_eq_false_iff] at this
            have h1a := this.2
            simp only [indexHas, List.any_cons, List.any_nil, Bool.or_false] at h1a
            intro heq
            rw [heq] at h1a
            simp at h1a
          · intro x hx
            rcases List.mem_cons.mp hx with hx | hx
            · subst hx
              exact ⟨0, Nat.succ_pos _, rfl, rfl, hembed, hv⟩
            · exact newsOk_shift embed stem c rest i x (h4 x hx)

/-- Identifiers present before the loop remain present after it. -/
theorem ingestLoop_mono (embed : Str → Option Vec) (stem fname : Str) (now : Nat)
    (cs : List Str) (i : Nat) (idx : Index) (d : Str) (h : indexHas idx d = true) :
    indexHas (ingestLoop embed stem fname now cs i idx).1 d = true := by
  obtain ⟨news, h1, _⟩ := ingestLoop_index embed stem fname now cs i idx
  rw [h1, indexHas_append, h, Bool.true_or]

/-- Every chunk whose embedding call succeeds with a non-empty vector ends
up present in the index (it is either freshly upserted or was already
there). -/
theorem ingestLoop_has_of_embed (embed : Str → Option Vec) (stem fname : Str) (now : Nat) :
    ∀ (cs : List Str) (i : Nat) (idx : Index) (j : Nat) (hj : j < cs.length) (v : Vec),
      embed (cs.get ⟨j, hj⟩) = some v → v ≠ [] →
      indexHas (ingestLoop embed stem fname now cs i idx).1 (chunkId stem (i + j)) = true := by
  intro cs
  induction cs with
  | nil => intro i idx j hj; exact absurd hj (by simp)
  | cons c rest ih =>
    intro i idx j hj v hemb hv
    cases j with
    | zero =>
      have hc : embed c = some v := hemb
      by_cases hhas : indexHas idx (chunkId stem i) = true
      · simp only [ingestLoop, hc, if_neg hv, if_pos hhas]
        exact ingestLoop_mono embed stem fname now rest (i + 1) idx _ hhas
      · simp only [ingestLoop, hc, if_neg hv, if_neg hhas]
        refine ingestLoop_mono embed stem fname now rest (i + 1) _ _ ?_
        simp [indexHas_append, indexHas, mkEntry]
    | succ j' =>
      have hemb' : embed (rest.get ⟨j', Nat.lt_of_succ_lt_succ hj⟩) = some v := hemb
      rw [show i + (j' + 1) = i + 1 + j' by omega]
      cases hembed : embed c with
      | none =>
        simp only [ingestLoop, hembed]
        exact ih (i + 1) idx j' (Nat.lt_of_succ_lt_succ hj) v hemb' hv
      | some w =>
        by_cases hw : w = []
        · simp only [ingestLoop, hembed, if_pos hw]
          exact ih (i + 1) idx j' (Nat.lt_of_succ_lt_succ hj) v hemb' hv
        · by_cases hhas : indexHas idx (chunkId stem i) = true
          · simp only [ingestLoop, hembed, if_neg hw, if_pos hhas]
            exact ih (i + 1) idx j' (Nat.lt_of_succ_lt_succ hj) v hemb' hv
          · simp only [ingestLoop, hembed, if_neg hw, if_neg hhas]
            exact ih (i + 1) _ j' (Nat.lt_of_succ_lt_succ hj) v hemb' hv

theorem find?_append_none {α : Type} (pred : α → Bool) (l1 l2 : List α)
    (h : l1.find? pred = none) : (l1 ++ l2).find? pred = l2.find? pred := by
  rw [List.find?_append, h, Option.none_or]

theorem any_false_find?_none {α : Type} (pred : α → Bool) (l : List α)
    (h : l.any pred = false) : l.find? pred = none := by
  rw [List.find?_eq_none]
  intro x hx
  rw [List.any_eq_false] at h
  exact h x hx

theorem find?_map_update_self (k : Str) (v : Nat) :
    ∀ st : IngestState, st.any (fun p => p.1 == k) = true →
      (st.map (fun p => if p.1 == k then (k, v) else p)).find? (fun q => q.1 == k) =
        some (k, v) := by
  intro st
  induction st with
  | nil => intro h; simp at h
  | cons p t ih =>
    intro h
    by_cases hp : (p.1 == k) = true
    · rw [List.map_cons, if_pos hp, List.find?_cons_of_pos _ (by simp)]
    · simp only [List.any_cons, hp, Bool.false_or] at h
      have hp2 : (p.1 == k) = false := by simpa using hp
      rw [List.map_cons, if_neg hp]
      simp only [List.find?, hp2]
      exact ih h

theorem find?_map_update_other (k : Str) (v : Nat) (k' : Str) (hkk : k' ≠ k) :
    ∀ st : IngestState,
      (st.map (fun p => if p.1 == k then (k, v) else p)).find? (fun q => q.1 == k') =
        st.find? (fun q => q.1 == k') := by
  intro st
  induction st with
  | nil => simp
  | cons p t ih =>
    by_cases hp : (p.1 == k) = true
    · have hpk : p.1 = k := by simpa using hp
      have h1 : ((k : Str) == k') = false := by
        simp only [beq_eq_false_iff_ne, ne_eq]
        exact fun h => hkk h.symm
      have h2 : (p.1 == k') = false := by rw [hpk]; exact h1
      rw [List.map_cons, if_pos hp]
      simp only [List.find?, h1, h2]
      exact ih
    · rw [List.map_cons, if_neg hp]
      cases hq : (p.1 == k') with
      | true => simp only [List.find?, hq]
      | false =>
        simp only [List.find?, hq]
        exact ih

theorem stateGetD_set_self (st : IngestState) (k : Str) (v : Nat) :
    stateGetD (stateSet st k v) k = v := by
  unfold stateSet
  by_cases hany : st.any (fun p => p.1 == k) = true
  · rw [if_pos hany]
    unfold stateGetD
    rw [find?_map_update_self k v st hany]
  · rw [if_neg hany]
    unfold stateGetD
    rw [find?_append_none _ st [(k, v)]
      (any_false_find?_none _ st (Bool.eq_false_iff.mpr hany))]
    simp [List.find?]

theorem stateGetD_set_other (st : IngestState) (k : Str) (v : Nat) (k' : Str)
    (hkk : k' ≠ k) : stateGetD (stateSet st k v) k' = stateGetD st k' := by
  unfold stateSet
  by_cases hany : st.any (fun p => p.1 == k) = true
  · rw [if_pos hany]
    unfold stateGetD
    rw [find?_map_update_other k v k' hkk st]
  · rw [if_neg hany]
    unfold stateGetD
    have h1 : ((k : Str) == k') = false := by
      simp only [beq_eq_false_iff_ne, ne_eq]
      exact fun h => hkk h.symm
    rw [List.find?_append]
    have h2 : List.find? (fun q => q.1 == k') [(k, v)] = none := by
      simp [List.find?, h1]
    rw [h2, Option.or_none]

/-- C2: a document is re-processed by `ingest` if and only if its current
modification timestamp strictly exceeds the timestamp recorded in the state
store (a missing entry reads as 0): when the current timestamp is equal or
lower, `ingest` returns immediately with zero extraction passes and zero
embedding calls, leaving index and state untouched; when it is strictly
greater, the extraction pass is performed. -/
theorem ingest_staleness_check (extracted : Str) (embed : Str → Option Vec)
    (name stem : Str) (mtime now : Nat) (state0 : IngestState) (idx0 : Index) :
    (mtime ≤ stateGetD state0 name →
      (ingest_single_pdf extracted embed name stem mtime now state0 idx0).extractCalls = 0 ∧
      (ingest_single_pdf extracted embed name stem mtime now state0 idx0).embedCalls = [] ∧
      (ingest_single_pdf extracted embed name stem mtime now state0 idx0).index = idx0 ∧
      (ingest_single_pdf extracted embed name stem mtime now state0 idx0).state = state0) ∧
    (stateGetD state0 name < mtime →
      (ingest_single_pdf extracted embed name stem mtime now state0 idx0).extractCalls = 1) := by
  constructor
  · intro h
    simp only [ingest_single_pdf, if_pos h]
    exact ⟨trivial, trivial, trivial, trivial⟩
  · intro h
    have h0 : ¬ stateGetD state0 name ≥ mtime := by omega
    by_cases he : extracted = []
    · simp only [ingest_single_pdf, if_neg h0, if_pos he]
    · simp only [ingest_single_pdf, if_neg h0, if_neg he]

/-- C3: calling `ingest` twice in succession on the same document with no
change to the document between the calls (same modification timestamp, same
extracted text) makes the second call a no-op: the vector index and the
saved state after the second call are exactly those after the first call,
whatever the embedding oracle does on either run. -/
theorem ingest_idempotent (extracted : Str) (embed1 embed2 : Str → Option Vec)
    (name stem : Str) (mtime now1 now2 : Nat) (state0 : IngestState) (idx0 : Index) :
    (ingest_single_pdf extracted embed2 name stem mtime now2
        (ingest_single_pdf extracted embed1 name stem mtime now1 state0 idx0).state
        (ingest_single_pdf extracted embed1 name stem mtime now1 state0 idx0).index).index =
      (ingest_single_pdf extracted embed1 name stem mtime now1 state0 idx0).index ∧
    (ingest_single_pdf extracted embed2 name stem mtime now2
        (ingest_single_pdf extracted embed1 name stem mtime now1 state0 idx0).state
        (ingest_single_pdf extracted embed1 name stem mtime now1 state0 idx0).index).state =
      (ingest_single_pdf extracted embed1 name stem mtime now1 state0 idx0).state := by
  by_cases h0 : stateGetD state0 name ≥ mtime
  · simp only [ingest_single_pdf, if_pos h0]
    exact ⟨trivial, trivial⟩
  · by_cases he : extracted = []
    · simp only [ingest_single_pdf, if_neg h0, if_pos he]
      exact ⟨trivial, trivial⟩
    · have h3 : stateGetD (stateSet state0 name mtime) name ≥ mtime :=
        le_of_eq (stateGetD_set_self state0 name mtime).symm
      simp only [ingest_single_pdf, if_neg h0, if_neg he, if_pos h3]
      exact ⟨trivial, trivial⟩

/-- C8: for a document whose extracted text is empty after the OCR
fallback, `ingest` aborts: the vector index and the state store are
returned unchanged, so the document stays eligible for retry when its
timestamp next changes. -/
theorem ingest_empty_text_aborts (extracted : Str) (embed : Str → Option Vec)
    (name stem : Str) (mtime now : Nat) (state0 : IngestState) (idx0 : Index)
    (hempty : extracted = []) :
    (ingest_single_pdf extracted embed name stem mtime now state0 idx0).index = idx0 ∧
    (ingest_single_pdf extracted embed name stem mtime now state0 idx0).state = state0 := by
  by_cases h0 : stateGetD state0 name ≥ mtime
  · simp only [ingest_single_pdf, if_pos h0]
    exact ⟨trivial, trivial⟩
  · simp only [ingest_single_pdf, if_neg h0, if_pos hempty]
    exact ⟨trivial, trivial⟩

/-- C10: a run of `ingest` on one document touches at most the state-store
entry keyed by that document's own filename: the recorded timestamp of
every other filename is the same in the saved state as in the loaded
state. -/
theorem ingest_state_frame (extracted : Str) (embed : Str → Option Vec)
    (name stem : Str) (mtime now : Nat) (state0 : IngestState) (idx0 : Index)
    (k : Str) (hk : k ≠ name) :
    stateGetD (ingest_single_pdf extracted embed name stem mtime now state0 idx0).state k =
      stateGetD state0 k := by
  by_cases h0 : stateGetD state0 name ≥ mtime
  · simp only [ingest_single_pdf, if_pos h0]
  · by_cases he : extracted = []
    · simp only [ingest_single_pdf, if_neg h0, if_pos he]
    · simp only [ingest_single_pdf, if_neg h0, if_neg he]
      exact stateGetD_set_other state0 name mtime k hk

/-- C9: if the embedding call fails for some chunk during ingest, only that
chunk is skipped: the embedding capability is still invoked for every chunk
position, no index entry for the failed chunk's position is added, every
chunk whose embedding succeeds (with a non-empty vector) is present in the
final index, and the document's state-store timestamp is still updated to
`mtime` afterwards — so the failed chunk is not retried on a later run with
an unchanged timestamp. -/
theorem ingest_embed_failure_isolated (extracted : Str) (embed : Str → Option Vec)
    (name stem : Str) (mtime now : Nat) (state0 : IngestState) (idx0 : Index)
    (hnew : stateGetD state0 name < mtime) (hne : extracted ≠ [])
    (i : Nat) (hi : i < (chunk_text extracted CHUNK_SIZE CHUNK_OVERLAP).length)
    (hfail : embed ((chunk_text extracted CHUNK_SIZE CHUNK_OVERLAP).get ⟨i, hi⟩) = none) :
    (ingest_single_pdf extracted embed name stem mtime now state0 idx0).embedCalls =
      List.range (chunk_text extracted CHUNK_SIZE CHUNK_OVERLAP).length ∧
    (∀ e ∈ (ingest_single_pdf extracted embed name stem mtime now state0 idx0).index,
      e ∈ idx0 ∨ e.metadata.chunk_index ≠ i) ∧
    (∀ j, ∀ hj : j < (chunk_text extracted CHUNK_SIZE CHUNK_OVERLAP).length, ∀ v : Vec,
      embed ((chunk_text extracted CHUNK_SIZE CHUNK_OVERLAP).get ⟨j, hj⟩) = some v → v ≠ [] →
      indexHas (ingest_single_pdf extracted embed name stem mtime now state0 idx0).index
        (chunkId stem j) = true) ∧
    stateGetD (ingest_single_pdf extracted embed name stem mtime now state0 idx0).state name =
      mtime := by
  have h0 : ¬ stateGetD state0 name ≥ mtime := by omega
  simp only [ingest_single_pdf, if_neg h0, if_neg hne]
  refine ⟨?_, ?_, ?_, ?_⟩
  · rw [ingestLoop_calls]
    exact (List.range_eq_range' _).symm
  · intro e he
    obtain ⟨news, h1, h2, h3, h4⟩ :=
      ingestLoop_index embed stem name now (chunk_text extracted CHUNK_SIZE CHUNK_OVERLAP) 0 idx0
    rw [h1] at he
    rcases List.mem_append.mp he with he | he
    · exact Or.inl he
    · right
      obtain ⟨j, hj, hji, _, hemb, _⟩ := h4 e he
      intro hcontra
      have hji2 : j = i := by omega
      subst hji2
      have heq : embed ((chunk_text extracted CHUNK_SIZE CHUNK_OVERLAP).get ⟨j, hi⟩) =
          some e.embedding := hemb
      rw [hfail] at heq
      simp at heq
  · intro j hj v hemb hv
    have := ingestLoop_has_of_embed embed stem name now
      (chunk_text extracted CHUNK_SIZE CHUNK_OVERLAP) 0 idx0 j hj v hemb hv
    simpa using this
  · exact stateGetD_set_self state0 name mtime

/-- C1 (amended): for every chunk whose identifier already exists in the
vector index at the time `ingest` processes it, `ingest` never re-upserts
that chunk — every entry added by a run carries an identifier absent from
the pre-run index and no identifier is added twice within the run — but the
embedding capability is nevertheless invoked for every chunk of a processed
document, existing identifier or not, because the code embeds before the
dedup check. -/
theorem ingest_dedup_amended (extracted : Str) (embed : Str → Option Vec)
    (name stem : Str) (mtime now : Nat) (state0 : IngestState) (idx0 : Index) :
    (∃ news : List Entry,
      (ingest_single_pdf extracted embed name stem mtime now state0 idx0).index = idx0 ++ news ∧
      (∀ x ∈ news, indexHas idx0 x.id = false) ∧
      List.Pairwise (fun a b => a.id ≠ b.id) news) ∧
    (stateGetD state0 name < mtime → extracted ≠ [] →
      (ingest_single_pdf extracted embed name stem mtime now state0 idx0).embedCalls =
        List.range (chunk_text extracted CHUNK_SIZE CHUNK_OVERLAP).length) := by
  constructor
  · by_cases h0 : stateGetD state0 name ≥ mtime
    · exact ⟨[], by simp [ingest_single_pdf, if_pos h0], by simp, List.Pairwise.nil⟩
    · by_cases he : extracted = []
      · exact ⟨[], by simp [ingest_single_pdf, if_neg h0, if_pos he], by simp, List.Pairwise.nil⟩
      · obtain ⟨news, h1, h2, h3, _⟩ := ingestLoop_index embed stem name now
          (chunk_text extracted CHUNK_SIZE CHUNK_OVERLAP) 0 idx0
        exact ⟨news, by simp only [ingest_single_pdf, if_neg h0, if_neg he]; exact h1, h2, h3⟩
  · intro h1 h2
    have h0 : ¬ stateGetD state0 name ≥ mtime := by omega
    simp only [ingest_single_pdf, if_neg h0, if_neg h2]
    rw [ingestLoop_calls]
    exact (List.range_eq_range' _).symm

/-- C7: `retrieve(query, k)` returns two empty sequences rather than
raising when the vector index is empty or when the query-embedding call
fails; the only assumption on the external index's search is that it
returns records of the index. -/
theorem retrieve_context_graceful (embedQ : Str → Option Vec)
    (queryIndex : Index → Vec → Nat → List Entry) (idx : Index) (q : Str) (k : Nat)
    (hsub : ∀ (i : Index) (v : Vec) (n : Nat), List.Sublist (queryIndex i v n) i) :
    (idx = [] → retrieve_context embedQ queryIndex idx q k = ([], [])) ∧
    (embedQ q = none → retrieve_context embedQ queryIndex idx q k = ([], [])) := by
  constructor
  · intro hidx
    subst hidx
    cases he : embedQ q with
    | none => simp [retrieve_context, he]
    | some v =>
      have hq : queryIndex [] v k = [] := List.sublist_nil.mp (hsub [] v k)
      simp [retrieve_context, he, hq]
  · intro he
    simp [retrieve_context, he]

/-- C1 (counterexample): a document with stem `"d"` whose first chunk's
identifier `d::chunk_0` is already present in the vector index.  On ingest,
the embedding capability is invoked for that chunk (`embedCalls = [0]`)
even though the upsert is skipped (the index is unchanged): `ingest.py`
calls `embed_text` at line 160, before the dedup check at lines 165-167,
refuting the claim that neither the embedding capability nor the upsert is
invoked for such a chunk. -/
theorem ingest_reembeds_existing_cex :
    indexHas [dupEntry] (chunkId ['d'] 0) = true ∧
    (ingest_single_pdf ['h','e','l','l','o'] (fun _ => some [1])
      ['d','.','p','d','f'] ['d'] 1 7 [] [dupEntry]).embedCalls = [0] ∧
    (ingest_single_pdf ['h','e','l','l','o'] (fun _ => some [1])
      ['d','.','p','d','f'] ['d'] 1 7 [] [dupEntry]).index = [dupEntry] := by
  decide

/-- Witness for C2 at a recorded timestamp 5 and current timestamp 3. -/
theorem ingest_staleness_check_w :
    (3 ≤ stateGetD [(['d'], 5)] ['d']) ∧
    ((ingest_single_pdf ['t'] (fun _ => none) ['d'] ['d'] 3 0 [(['d'], 5)] []).extractCalls = 0 ∧
     (ingest_single_pdf ['t'] (fun _ => none) ['d'] ['d'] 3 0 [(['d'], 5)] []).embedCalls = [] ∧
     (ingest_single_pdf ['t'] (fun _ => none) ['d'] ['d'] 3 0 [(['d'], 5)] []).index = [] ∧
     (ingest_single_pdf ['t'] (fun _ => none) ['d'] ['d'] 3 0 [(['d'], 5)] []).state = [(['d'], 5)]) :=
  ⟨by decide,
   (ingest_staleness_check ['t'] (fun _ => none) ['d'] ['d'] 3 0 [(['d'], 5)] []).1 (by decide)⟩

/-- Witness for C8 at an empty extracted text. -/
theorem ingest_empty_text_aborts_w :
    (([] : Str) = []) ∧
    ((ingest_single_pdf [] (fun _ => some [1]) ['d'] ['d'] 1 0 [] []).index = [] ∧
     (ingest_single_pdf [] (fun _ => some [1]) ['d'] ['d'] 1 0 [] []).state = []) :=
  ⟨rfl, ingest_empty_text_aborts [] (fun _ => some [1]) ['d'] ['d'] 1 0 [] [] rfl⟩

/-- Witness for C10: ingesting `"d"` leaves the entry of `"x"` unchanged. -/
theorem ingest_state_frame_w :
    ((['x'] : Str) ≠ ['d']) ∧
    stateGetD (ingest_single_pdf ['t'] (fun _ => some [1]) ['d'] ['d'] 1 0 [(['x'], 9)] []).state
        ['x'] =
      stateGetD [(['x'], 9)] ['x'] :=
  ⟨by decide,
   ingest_state_frame ['t'] (fun _ => some [1]) ['d'] ['d'] 1 0 [(['x'], 9)] [] ['x'] (by decide)⟩

/-- Witness for C9: every embedding call fails on a one-chunk document;
the state is still advanced and no entry is added. -/
theorem ingest_embed_failure_isolated_w :
    (stateGetD [] ['d'] < 1 ∧ (['h','e','l','l','o'] : Str) ≠ [] ∧
     0 < (chunk_text ['h','e','l','l','o'] CHUNK_SIZE CHUNK_OVERLAP).length ∧
     (none : Option Vec) = none) ∧
    ((ingest_single_pdf ['h','e','l','l','o'] (fun _ => none) ['d'] ['d'] 1 0 [] []).embedCalls =
       List.range (chunk_text ['h','e','l','l','o'] CHUNK_SIZE CHUNK_OVERLAP).length ∧
     (∀ e ∈ (ingest_single_pdf ['h','e','l','l','o'] (fun _ => none) ['d'] ['d'] 1 0 [] []).index,
       e ∈ ([] : Index) ∨ e.metadata.chunk_index ≠ 0) ∧
     (∀ j, ∀ hj : j < (chunk_text ['h','e','l','l','o'] CHUNK_SIZE CHUNK_OVERLAP).length,
       ∀ v : Vec, (none : Option Vec) = some v → v ≠ [] →
       indexHas (ingest_single_pdf ['h','e','l','l','o'] (fun _ => none) ['d'] ['d'] 1 0 [] []).index
         (chunkId ['d'] j) = true) ∧
     stateGetD (ingest_single_pdf ['h','e','l','l','o'] (fun _ => none) ['d'] ['d'] 1 0 [] []).state
       ['d'] = 1) :=
  ⟨⟨by decide, by decide, by decide, rfl⟩,
   ingest_embed_failure_isolated ['h','e','l','l','o'] (fun _ => none) ['d'] ['d'] 1 0 [] []
     (by decide) (by decide) 0 (by decide) rfl⟩

/-- Witness for C1 (amended): the embedding capability is invoked for the
single chunk of a fresh document. -/
theorem ingest_dedup_amended_w :
    (stateGetD [] ['d'] < 1 ∧ (['h','i'] : Str) ≠ []) ∧
    (ingest_single_pdf ['h','i'] (fun _ => some [1]) ['d'] ['d'] 1 0 [] []).embedCalls =
      List.range (chunk_text ['h','i'] CHUNK_SIZE CHUNK_OVERLAP).length :=
  ⟨⟨by decide, by decide⟩,
   (ingest_dedup_amended ['h','i'] (fun _ => some [1]) ['d'] ['d'] 1 0 [] []).2
     (by decide) (by decide)⟩

/-- Witness for C7 with an empty index and a take-based search. -/
theorem retrieve_context_graceful_w :
    (∀ (i : Index) (v : Vec) (n : Nat), List.Sublist (i.take n) i) ∧
    retrieve_context (fun _ => some [1]) (fun i _ n => i.take n) [] ['q'] TOP_K = ([], []) :=
  ⟨fun i _ n => List.take_sublist n i,
   (retrieve_context_graceful (fun _ => some [1]) (fun i _ n => i.take n) [] ['q'] TOP_K
     (fun i _ n => List.take_sublist n i)).1 rfl⟩
